import Mathlib

/-!
Verification of the aha-ggregator pipeline (scraper.py, classify.py,
generate_html.py) against its natural-language specification.

The embedding is shallow: each Python function of the pipeline logic is
translated to an executable Lean definition over explicit data.  JSONL log
files are modelled as lists of already-parsed records (corrupt lines are
skipped by every reader in the source, so they never reach the logic
modelled here).  Timestamps (`scraped_at`, `classified_at`) come from the
wall clock and are irrelevant to every property below; they are omitted
from the record types.  Python `dict.get(k, default)` on optional fields is
modelled with `Option` plus `Option.getD`.
-/

/-- A candidate post as built by the scraper (`fetch_reddit_posts`,
`fetch_hn_posts`, ...) and stored on the raw log
(`data/aha_moments_raw.jsonl`).  `score` is `Option` because
`classify_all` reads it with `post.get("score", 0)`. -/
structure Post where
  source : String
  title : String
  text : String
  url : String
  score : Option Int
  aiTool : String
deriving DecidableEq, Repr

/-- `scraper.py::deduplicate_posts` loop: walk the list keeping a `seen_urls`
set; a post is kept iff its url is truthy (non-empty) and not seen before. -/
def dedupAux (seen : List String) : List Post → List Post
  | [] => []
  | p :: rest =>
    if p.url ≠ "" ∧ p.url ∉ seen then p :: dedupAux (p.url :: seen) rest
    else dedupAux seen rest

/-- `scraper.py::deduplicate_posts`. -/
def deduplicate_posts (posts : List Post) : List Post :=
  dedupAux [] posts

/-- `scraper.py::load_existing_urls`: the urls of all (parseable) records of
the raw log, read with `item.get("url", "")`. -/
def load_existing_urls (log : List Post) : List String :=
  log.map Post.url

/-- `scraper.py::scrape_all`, ingestion part: the fetched candidates are
deduplicated, candidates whose url is already on the raw log are dropped,
and the survivors are appended to the raw log.  Returns (new raw log,
appended posts), matching the file append plus the function's return value.
The network fetching itself is an external effect and enters as the
`fetched` argument. -/
def scrape_all (log : List Post) (fetched : List Post) : List Post × List Post :=
  let existing := load_existing_urls log
  let all_posts := deduplicate_posts fetched
  let new_posts := all_posts.filter (fun p => p.url ∉ existing)
  (log ++ new_posts, new_posts)

namespace DedupLemmas

theorem dedupAux_sublist (seen : List String) (l : List Post) :
    (dedupAux seen l).Sublist l := by
  induction l generalizing seen with
  | nil => simp [dedupAux]
  | cons p rest ih =>
    by_cases h : p.url ≠ "" ∧ p.url ∉ seen
    · simpa [dedupAux, h] using (ih (p.url :: seen)).cons₂ p
    · simpa [dedupAux, h] using (ih seen).cons p

theorem url_ne_of_mem_dedupAux (seen : List String) (l : List Post) :
    ∀ p ∈ dedupAux seen l, p.url ≠ "" := by
  induction l generalizing seen with
  | nil => simp [dedupAux]
  | cons q rest ih =>
    by_cases h : q.url ≠ "" ∧ q.url ∉ seen
    · simp only [dedupAux, if_pos h]
      intro p hp
      rcases List.mem_cons.mp hp with rfl | hp
      · exact h.1
      · exact ih _ p hp
    · simp only [dedupAux, if_neg h]
      exact ih seen

theorem mem_map_url_dedupAux (seen : List String) (l : List Post) (u : String) :
    u ∈ (dedupAux seen l).map Post.url ↔
      u ≠ "" ∧ u ∉ seen ∧ u ∈ l.map Post.url := by
  induction l generalizing seen with
  | nil => simp [dedupAux]
  | cons p rest ih =>
    by_cases h : p.url ≠ "" ∧ p.url ∉ seen
    · simp only [dedupAux, if_pos h, List.map_cons, List.mem_cons, ih]
      constructor
      · rintro (rfl | ⟨hu1, hu2, hu3⟩)
        · exact ⟨h.1, h.2, Or.inl rfl⟩
        · exact ⟨hu1, fun hs => hu2 (Or.inr hs), Or.inr hu3⟩
      · rintro ⟨hu1, hu2, (rfl | hu3)⟩
        · exact Or.inl rfl
        · by_cases hup : u = p.url
          · exact Or.inl hup
          · exact Or.inr ⟨hu1, fun hc => hc.elim hup hu2, hu3⟩
    · simp only [dedupAux, if_neg h, ih, List.map_cons, List.mem_cons]
      rcases not_and_or.mp h with h1 | h2
      · have hpu : p.url = "" := not_not.mp h1
        constructor
        · rintro ⟨hu1, hu2, hu3⟩; exact ⟨hu1, hu2, Or.inr hu3⟩
        · rintro ⟨hu1, hu2, (rfl | hu3)⟩
          · exact absurd hpu hu1
          · exact ⟨hu1, hu2, hu3⟩
      · have hpu : p.url ∈ seen := not_not.mp h2
        constructor
        · rintro ⟨hu1, hu2, hu3⟩; exact ⟨hu1, hu2, Or.inr hu3⟩
        · rintro ⟨hu1, hu2, (rfl | hu3)⟩
          · exact absurd hpu hu2
          · exact ⟨hu1, hu2, hu3⟩

theorem nodup_map_url_dedupAux (seen : List String) (l : List Post) :
    ((dedupAux seen l).map Post.url).Nodup := by
  induction l generalizing seen with
  | nil => simp [dedupAux]
  | cons p rest ih =>
    by_cases h : p.url ≠ "" ∧ p.url ∉ seen
    · simp only [dedupAux, if_pos h, List.map_cons, List.nodup_cons]
      refine ⟨fun hmem => ?_, ih _⟩
      have := (mem_map_url_dedupAux _ _ _).mp hmem
      exact this.2.1 (List.mem_cons_self _ _)
    · simp only [dedupAux, if_neg h]
      exact ih seen

theorem find?_dedupAux (seen : List String) (l : List Post) (u : String)
    (hu : u ≠ "") (hs : u ∉ seen) :
    (dedupAux seen l).find? (fun p => p.url == u) =
      l.find? (fun p => p.url == u) := by
  induction l generalizing seen with
  | nil => simp [dedupAux]
  | cons p rest ih =>
    by_cases hpu : p.url = u
    · have hadd : p.url ≠ "" ∧ p.url ∉ seen := by rw [hpu]; exact ⟨hu, hs⟩
      have hbu : (p.url == u) = true := by simp [hpu]
      simp only [dedupAux, if_pos hadd, List.find?_cons, hbu]
    · by_cases h : p.url ≠ "" ∧ p.url ∉ seen
      · have hbu : (p.url == u) = false := by simp [hpu]
        simp only [dedupAux, if_pos h, List.find?_cons, hbu]
        exact ih (p.url :: seen)
          (fun hc => (List.mem_cons.mp hc).elim (fun e => hpu e.symm) hs)
      · have hbu : (p.url == u) = false := by simp [hpu]
        simp only [dedupAux, if_neg h, List.find?_cons, hbu]
        exact ih seen hs

theorem dedupAux_nil_of_all_empty (seen : List String) (l : List Post)
    (h : ∀ p ∈ l, p.url = "") : dedupAux seen l = [] := by
  induction l generalizing seen with
  | nil => rfl
  | cons p rest ih =>
    have hp : p.url = "" := h p (List.mem_cons_self _ _)
    have : ¬(p.url ≠ "" ∧ p.url ∉ seen) := by simp [hp]
    simp only [dedupAux, if_neg this]
    exact ih seen (fun q hq => h q (List.mem_cons_of_mem _ hq))

end DedupLemmas

/-- C1: for every input sequence of fetched candidate posts (all carrying a
non-empty url, as every fetcher in `scraper.py` constructs one),
`deduplicate_posts` returns exactly one record per distinct url — its url
list is duplicate-free, it mentions exactly the urls of the input, each
with multiplicity one — the record kept for a url is the first occurrence
of that url in the input, and the output is a subsequence of the input
(first-seen order preserved). -/
theorem deduplicate_posts_unique_first_order (posts : List Post)
    (h : ∀ p ∈ posts, p.url ≠ "") :
    ((deduplicate_posts posts).map Post.url).Nodup ∧
    (deduplicate_posts posts).Sublist posts ∧
    (∀ u, u ∈ (deduplicate_posts posts).map Post.url ↔ u ∈ posts.map Post.url) ∧
    (∀ u, u ∈ posts.map Post.url →
      ((deduplicate_posts posts).map Post.url).count u = 1) ∧
    (∀ u, u ∈ posts.map Post.url →
      (deduplicate_posts posts).find? (fun p => p.url == u) =
        posts.find? (fun p => p.url == u)) := by
  have hne : ∀ u, u ∈ posts.map Post.url → u ≠ "" := by
    intro u hu
    rcases List.mem_map.mp hu with ⟨p, hp, rfl⟩
    exact h p hp
  have hmem : ∀ u, u ∈ (deduplicate_posts posts).map Post.url ↔
      u ∈ posts.map Post.url := by
    intro u
    rw [deduplicate_posts, DedupLemmas.mem_map_url_dedupAux]
    constructor
    · exact fun hu => hu.2.2
    · intro hu
      exact ⟨hne u hu, by simp, hu⟩
  refine ⟨DedupLemmas.nodup_map_url_dedupAux [] posts,
    DedupLemmas.dedupAux_sublist [] posts, hmem, ?_, ?_⟩
  · intro u hu
    exact List.count_eq_one_of_mem (DedupLemmas.nodup_map_url_dedupAux [] posts)
      ((hmem u).mpr hu)
  · intro u hu
    exact DedupLemmas.find?_dedupAux [] posts u (hne u hu) (by simp)

/-- The concrete batch used by the C1 witness: three fetched candidates,
the first and third sharing a url. -/
def c1Batch : List Post :=
  [⟨"Reddit", "t1", "", "https://a", some 3, "Claude"⟩,
   ⟨"Reddit", "t2", "", "https://b", some 4, "ChatGPT"⟩,
   ⟨"HackerNews", "t3", "", "https://a", some 9, "Claude"⟩]

/-- C1 witness: on a concrete batch with a duplicated url the hypothesis
holds and the theorem yields duplicate-freeness and order preservation. -/
theorem deduplicate_posts_unique_first_order_witness :
    (∀ p ∈ c1Batch, p.url ≠ "") ∧
    ((deduplicate_posts c1Batch).map Post.url).Nodup ∧
    (deduplicate_posts c1Batch).Sublist c1Batch :=
  ⟨by decide, (deduplicate_posts_unique_first_order c1Batch (by decide)).1,
    (deduplicate_posts_unique_first_order c1Batch (by decide)).2.1⟩

/-- C10: `deduplicate_posts` drops every post whose url field is absent or
empty (Python falsy `post.get("url", "")`): every output post has a
non-empty url, and a batch in which every candidate lacks a url
deduplicates to the empty sequence. -/
theorem deduplicate_posts_drops_empty_urls (posts : List Post) :
    (∀ p ∈ deduplicate_posts posts, p.url ≠ "") ∧
    ((∀ p ∈ posts, p.url = "") → deduplicate_posts posts = []) :=
  ⟨DedupLemmas.url_ne_of_mem_dedupAux [] posts,
    fun h => DedupLemmas.dedupAux_nil_of_all_empty [] posts h⟩

/-- The concrete batch used by the C10 witness: two distinct candidates,
both without a url. -/
def c10Batch : List Post :=
  [⟨"Reddit", "t1", "", "", some 3, "Claude"⟩,
   ⟨"Reddit", "t2", "", "", some 4, "ChatGPT"⟩]

/-- C10 witness: a concrete batch where every candidate lacks a url
deduplicates to the empty list, not to one record per post. -/
theorem deduplicate_posts_drops_empty_urls_witness :
    (∀ p ∈ c10Batch, p.url = "") ∧ deduplicate_posts c10Batch = [] :=
  ⟨by decide, (deduplicate_posts_drops_empty_urls c10Batch).2 (by decide)⟩

/-- C2: the ingestion run `scrape_all` never re-appends a post whose url is
already on the raw log (idempotence under re-run), it only ever appends (the
new raw log extends the old one), and — given the raw-log invariant that
urls on the log are pairwise distinct — the updated raw log still carries
each distinct url at most once. -/
theorem scrape_all_no_reingestion (log fetched : List Post)
    (hlog : (log.map Post.url).Nodup) :
    (∀ p ∈ (scrape_all log fetched).2, p.url ∉ log.map Post.url) ∧
    (scrape_all log fetched).1 = log ++ (scrape_all log fetched).2 ∧
    (((scrape_all log fetched).1).map Post.url).Nodup := by
  have hnew : ∀ p ∈ (scrape_all log fetched).2, p.url ∉ log.map Post.url := by
    intro p hp
    have := List.mem_filter.mp hp
    simpa [load_existing_urls] using of_decide_eq_true this.2
  refine ⟨hnew, rfl, ?_⟩
  have hsub : ((scrape_all log fetched).2.map Post.url).Sublist
      ((deduplicate_posts fetched).map Post.url) :=
    List.Sublist.map Post.url (List.filter_sublist _)
  have hnodup2 : ((scrape_all log fetched).2.map Post.url).Nodup :=
    hsub.nodup (DedupLemmas.nodup_map_url_dedupAux [] fetched)
  rw [show (scrape_all log fetched).1 = log ++ (scrape_all log fetched).2 from rfl,
    List.map_append, List.nodup_append]
  refine ⟨hlog, hnodup2, ?_⟩
  intro u hu hu2
  rcases List.mem_map.mp hu2 with ⟨p, hp, rfl⟩
  exact hnew p hp hu

/-- The raw log used by the C2 witness: one previously ingested post. -/
def c2Log : List Post :=
  [⟨"Reddit", "t0", "", "https://a", some 7, "Claude"⟩]

/-- C2 witness: re-fetching a post whose url is already on the raw log
appends nothing for it and keeps the log urls duplicate-free. -/
theorem scrape_all_no_reingestion_witness :
    ((c2Log.map Post.url).Nodup) ∧
    (∀ p ∈ (scrape_all c2Log c1Batch).2, p.url ∉ c2Log.map Post.url) ∧
    (((scrape_all c2Log c1Batch).1).map Post.url).Nodup :=
  ⟨by decide, (scrape_all_no_reingestion c2Log c1Batch (by decide)).1,
    (scrape_all_no_reingestion c2Log c1Batch (by decide)).2.2⟩

/-- The oracle's parsed JSON output for one post
(`classify.py::CLASSIFICATION_PROMPT` answer).  Fields are `Option` because
`classify_all` reads them with `result.get(...)`: `is_valid_aha_moment` by
Python truthiness (absent counts as false) and `confidence` with default
`0`. -/
structure ClassificationResult where
  isValidAhaMoment : Option Bool
  layer : Option String
  growthLevers : List String
  useCase : Option String
  quote : Option String
  realization : Option String
  provocation : Option String
  confidence : Option Int
deriving DecidableEq, Repr

/-- A record of the classified log (`data/aha_moments_classified.jsonl`) and
of the final log (`data/aha_moments.jsonl`): the merge
`{**post, **result, "classified_at": ...}` of the raw post and the oracle
output (the timestamp is wall-clock and omitted). -/
structure Classified where
  post : Post
  result : ClassificationResult
deriving DecidableEq, Repr

/-- What one iteration of the `classify_all` loop produces: the oracle
requests it makes, the records it appends to the classified log, and the
records it adds to `valid_moments` (appended to the final log at the end of
the run).  All three in processing order. -/
structure ClassifyOutput where
  calls : List Post
  classifiedNew : List Classified
  validMoments : List Classified
deriving DecidableEq, Repr

def ClassifyOutput.empty : ClassifyOutput := ⟨[], [], []⟩

def ClassifyOutput.append (a b : ClassifyOutput) : ClassifyOutput :=
  ⟨a.calls ++ b.calls, a.classifiedNew ++ b.classifiedNew,
    a.validMoments ++ b.validMoments⟩

/-- One iteration of the `classify_all` loop (`classify.py` lines 137-167)
on a single post: skip it when `post.get("score", 0) < min_score` (no
oracle call, nothing written); otherwise call the oracle once
(`classify_post`).  `oracle p = none` models a response that is not valid
JSON after unwrapping (`classify_post` returns `None`): nothing is written.
On `some r` the merged record goes to the classified log, and additionally
to `valid_moments` iff `result.get("is_valid_aha_moment")` is truthy and
`result.get("confidence", 0) >= min_confidence`. -/
def classifyStep (oracle : Post → Option ClassificationResult)
    (min_confidence min_score : Int) (p : Post) : ClassifyOutput :=
  if p.score.getD 0 < min_score then ClassifyOutput.empty
  else
    match oracle p with
    | none => ⟨[p], [], []⟩
    | some r =>
      ⟨[p], [⟨p, r⟩],
        if r.isValidAhaMoment.getD false ∧ min_confidence ≤ r.confidence.getD 0
        then [⟨p, r⟩] else []⟩

/-- The `classify_all` main loop over a list of posts to classify. -/
def classifyRun (oracle : Post → Option ClassificationResult)
    (min_confidence min_score : Int) (ps : List Post) : ClassifyOutput :=
  ps.foldr (fun p acc => (classifyStep oracle min_confidence min_score p).append acc)
    ClassifyOutput.empty

/-- `classify.py::classify_all`, selection part (lines 106-132): the posts
of the raw log whose url is not already on the classified log. -/
def postsToClassify (rawLog : List Post) (clsLog : List Classified) : List Post :=
  rawLog.filter (fun p => p.url ∉ clsLog.map (fun c => c.post.url))

/-- `classify.py::classify_all` for one run: select the unclassified posts,
then run the loop.  The classified log becomes `clsLog ++ classifiedNew`
and the final log is extended by `validMoments`. -/
def classify_all (rawLog : List Post) (clsLog : List Classified)
    (oracle : Post → Option ClassificationResult)
    (min_confidence min_score : Int) : ClassifyOutput :=
  classifyRun oracle min_confidence min_score (postsToClassify rawLog clsLog)

namespace ClassifyLemmas

theorem classifyRun_nil (oracle : Post → Option ClassificationResult)
    (mc ms : Int) : classifyRun oracle mc ms [] = ClassifyOutput.empty := rfl

theorem classifyRun_cons (oracle : Post → Option ClassificationResult)
    (mc ms : Int) (p : Post) (ps : List Post) :
    classifyRun oracle mc ms (p :: ps) =
      (classifyStep oracle mc ms p).append (classifyRun oracle mc ms ps) := rfl

theorem classifyRun_append (oracle : Post → Option ClassificationResult)
    (mc ms : Int) (l₁ l₂ : List Post) :
    classifyRun oracle mc ms (l₁ ++ l₂) =
      (classifyRun oracle mc ms l₁).append (classifyRun oracle mc ms l₂) := by
  induction l₁ with
  | nil => simp [classifyRun_nil, classifyRun, ClassifyOutput.append, ClassifyOutput.empty]
  | cons p ps ih =>
    rw [List.cons_append, classifyRun_cons, classifyRun_cons, ih]
    simp [ClassifyOutput.append, List.append_assoc]

theorem score_le_of_mem_calls (oracle : Post → Option ClassificationResult)
    (mc ms : Int) (ps : List Post) :
    ∀ p ∈ (classifyRun oracle mc ms ps).calls, ms ≤ p.score.getD 0 := by
  induction ps with
  | nil => simp [classifyRun_nil, ClassifyOutput.empty]
  | cons q qs ih =>
    rw [classifyRun_cons]
    intro p hp
    rcases List.mem_append.mp hp with hp | hp
    · by_cases hq : q.score.getD 0 < ms
      · simp [classifyStep, if_pos hq, ClassifyOutput.empty] at hp
      · rcases ho : oracle q with _ | r <;>
          simp [classifyStep, if_neg hq, ho] at hp <;>
          exact hp ▸ not_lt.mp hq
    · exact ih p hp

theorem mem_calls_iff (oracle : Post → Option ClassificationResult)
    (mc ms : Int) (ps : List Post) (p : Post) :
    p ∈ (classifyRun oracle mc ms ps).calls ↔
      p ∈ ps ∧ ms ≤ p.score.getD 0 := by
  induction ps with
  | nil => simp [classifyRun_nil, ClassifyOutput.empty]
  | cons q qs ih =>
    rw [classifyRun_cons]
    show p ∈ (classifyStep oracle mc ms q).calls ++ _ ↔ _
    rw [List.mem_append, ih, List.mem_cons]
    by_cases hq : q.score.getD 0 < ms
    · simp only [classifyStep, if_pos hq, ClassifyOutput.empty]
      constructor
      · rintro (h | ⟨h1, h2⟩)
        · simp at h
        · exact ⟨Or.inr h1, h2⟩
      · rintro ⟨(rfl | h1), h2⟩
        · exact absurd hq (not_lt.mpr h2)
        · exact Or.inr ⟨h1, h2⟩
    · have hcalls : (classifyStep oracle mc ms q).calls = [q] := by
        rcases ho : oracle q with _ | r <;> simp [classifyStep, if_neg hq, ho]
      rw [hcalls]
      constructor
      · rintro (h | ⟨h1, h2⟩)
        · rcases List.mem_singleton.mp h with rfl
          exact ⟨Or.inl rfl, not_lt.mp hq⟩
        · exact ⟨Or.inr h1, h2⟩
      · rintro ⟨(rfl | h1), h2⟩
        · exact Or.inl (List.mem_singleton.mpr rfl)
        · exact Or.inr ⟨h1, h2⟩

theorem mem_classifiedNew (oracle : Post → Option ClassificationResult)
    (mc ms : Int) (ps : List Post) :
    ∀ c ∈ (classifyRun oracle mc ms ps).classifiedNew,
      oracle c.post = some c.result ∧ ms ≤ c.post.score.getD 0 ∧ c.post ∈ ps := by
  induction ps with
  | nil => simp [classifyRun_nil, ClassifyOutput.empty]
  | cons q qs ih =>
    rw [classifyRun_cons]
    intro c hc
    rcases List.mem_append.mp hc with hc | hc
    · by_cases hq : q.score.getD 0 < ms
      · simp [classifyStep, if_pos hq, ClassifyOutput.empty] at hc
      · rcases ho : oracle q with _ | r
        · simp [classifyStep, if_neg hq, ho] at hc
        · simp only [classifyStep, if_neg hq, ho, List.mem_singleton] at hc
          subst hc
          exact ⟨ho, not_lt.mp hq, List.mem_cons_self _ _⟩
    · have := ih c hc
      exact ⟨this.1, this.2.1, List.mem_cons_of_mem _ this.2.2⟩

theorem mem_validMoments (oracle : Post → Option ClassificationResult)
    (mc ms : Int) (ps : List Post) :
    ∀ c ∈ (classifyRun oracle mc ms ps).validMoments,
      c ∈ (classifyRun oracle mc ms ps).classifiedNew ∧
      c.result.isValidAhaMoment.getD false = true ∧
      mc ≤ c.result.confidence.getD 0 := by
  induction ps with
  | nil => simp [classifyRun_nil, ClassifyOutput.empty]
  | cons q qs ih =>
    rw [classifyRun_cons]
    intro c hc
    rcases List.mem_append.mp hc with hc | hc
    · by_cases hq : q.score.getD 0 < ms
      · simp [classifyStep, if_pos hq, ClassifyOutput.empty] at hc
      · rcases ho : oracle q with _ | r
        · simp [classifyStep, if_neg hq, ho] at hc
        · simp only [classifyStep, if_neg hq, ho] at hc ⊢
          by_cases hacc : r.isValidAhaMoment.getD false ∧ mc ≤ r.confidence.getD 0
          · rw [if_pos hacc] at hc
            rcases List.mem_singleton.mp hc with rfl
            refine ⟨List.mem_append.mpr (Or.inl (List.mem_singleton.mpr rfl)), ?_, hacc.2⟩
            simpa using hacc.1
          · rw [if_neg hacc] at hc
            simp at hc
    · have := ih c hc
      refine ⟨?_, this.2.1, this.2.2⟩
      show c ∈ (classifyStep oracle mc ms q).classifiedNew ++ _
      exact List.mem_append.mpr (Or.inr this.1)

theorem mem_postsToClassify (rawLog : List Post) (clsLog : List Classified)
    (p : Post) :
    p ∈ postsToClassify rawLog clsLog ↔
      p ∈ rawLog ∧ p.url ∉ clsLog.map (fun c => c.post.url) := by
  constructor
  · intro hp
    have := List.mem_filter.mp hp
    exact ⟨this.1, of_decide_eq_true this.2⟩
  · intro ⟨h1, h2⟩
    exact List.mem_filter.mpr ⟨h1, decide_eq_true h2⟩

end ClassifyLemmas

/-- C3: a raw-log item whose score (default 0 when missing) is below
`min_score` triggers no oracle call in `classify_all` and is written neither
to the classified log nor to the final log. -/
theorem classify_all_skips_low_score (rawLog : List Post)
    (clsLog : List Classified) (oracle : Post → Option ClassificationResult)
    (mc ms : Int) (p : Post) (hscore : p.score.getD 0 < ms) :
    p ∉ (classify_all rawLog clsLog oracle mc ms).calls ∧
    (∀ c ∈ (classify_all rawLog clsLog oracle mc ms).classifiedNew, c.post ≠ p) ∧
    (∀ c ∈ (classify_all rawLog clsLog oracle mc ms).validMoments, c.post ≠ p) := by
  refine ⟨fun hp => ?_, fun c hc => ?_, fun c hc => ?_⟩
  · exact absurd (ClassifyLemmas.score_le_of_mem_calls oracle mc ms _ p hp)
      (not_le.mpr hscore)
  · intro hcp
    have := (ClassifyLemmas.mem_classifiedNew oracle mc ms _ c hc).2.1
    rw [hcp] at this
    exact absurd this (not_le.mpr hscore)
  · intro hcp
    have hmem := (ClassifyLemmas.mem_validMoments oracle mc ms _ c hc).1
    have := (ClassifyLemmas.mem_classifiedNew oracle mc ms _ c hmem).2.1
    rw [hcp] at this
    exact absurd this (not_le.mpr hscore)

/-- The raw log used by the classifier witnesses: a low-score and a
high-score post. -/
def cRawLog : List Post :=
  [⟨"Reddit", "low", "", "https://low", some 2, "Claude"⟩,
   ⟨"Reddit", "high", "", "https://high", some 10, "Claude"⟩]

/-- An oracle behaviour that accepts everything with confidence 80. -/
def oracleYes : Post → Option ClassificationResult :=
  fun _ => some ⟨some true, some "wow", ["activation"], some "Code generation",
    some "q", some "conversation", some "p", some 80⟩

/-- An oracle behaviour whose response is never valid JSON after
unwrapping: `classify_post` returns `None` every time. -/
def oracleFail : Post → Option ClassificationResult :=
  fun _ => none

/-- C3 witness: with `min_score = 5`, the score-2 post is neither sent to
the oracle nor written to any log, even with an accepting oracle. -/
theorem classify_all_skips_low_score_witness :
    ((⟨"Reddit", "low", "", "https://low", some 2, "Claude"⟩ : Post).score.getD 0 < 5) ∧
    (⟨"Reddit", "low", "", "https://low", some 2, "Claude"⟩ : Post) ∉
      (classify_all cRawLog [] oracleYes 60 5).calls :=
  ⟨by decide,
    (classify_all_skips_low_score cRawLog [] oracleYes 60 5 _ (by decide)).1⟩

/-- C4: every record appended to the final log by a `classify_all` run is
itself among the records appended to the classified log in that run (so a
record with the same url, namely the record itself, exists on the updated
classified log), its `is_valid_aha_moment` field is truthy, and its
`confidence` (default 0) is at least `min_confidence`. -/
theorem classify_all_final_requires_classified (rawLog : List Post)
    (clsLog : List Classified) (oracle : Post → Option ClassificationResult)
    (mc ms : Int) :
    ∀ c ∈ (classify_all rawLog clsLog oracle mc ms).validMoments,
      c ∈ (classify_all rawLog clsLog oracle mc ms).classifiedNew ∧
      (∃ c' ∈ clsLog ++ (classify_all rawLog clsLog oracle mc ms).classifiedNew,
        c'.post.url = c.post.url ∧
        c'.result.isValidAhaMoment.getD false = true ∧
        mc ≤ c'.result.confidence.getD 0) := by
  intro c hc
  have h := ClassifyLemmas.mem_validMoments oracle mc ms _ c hc
  exact ⟨h.1, c, List.mem_append.mpr (Or.inr h.1), rfl, h.2.1, h.2.2⟩

/-- C4 witness: with an accepting oracle, the high-score post's accepted
record is on the final-log append and, by the theorem, also on the
classified-log append. -/
theorem classify_all_final_requires_classified_witness :
    (⟨⟨"Reddit", "high", "", "https://high", some 10, "Claude"⟩,
      ⟨some true, some "wow", ["activation"], some "Code generation",
        some "q", some "conversation", some "p", some 80⟩⟩ : Classified) ∈
      (classify_all cRawLog [] oracleYes 60 5).validMoments ∧
    (⟨⟨"Reddit", "high", "", "https://high", some 10, "Claude"⟩,
      ⟨some true, some "wow", ["activation"], some "Code generation",
        some "q", some "conversation", some "p", some 80⟩⟩ : Classified) ∈
      (classify_all cRawLog [] oracleYes 60 5).classifiedNew :=
  ⟨by decide,
    (classify_all_final_requires_classified cRawLog [] oracleYes 60 5 _
      (by decide)).1⟩

/-- C7: when the oracle response for a post `p` is not valid JSON after
unwrapping (`classify_post` returns `None`), the run writes nothing for `p`
to the classified log or the final log, both logs receive exactly what they
would receive had `p` not been in the batch (the pipeline continues with the
remaining items), and `p`'s occurrence costs at most one oracle call (no
retry).  The error is only printed to the console, which the embedding does
not model. -/
theorem classify_parse_failure_skips (oracle : Post → Option ClassificationResult)
    (mc ms : Int) (l₁ l₂ : List Post) (p : Post) (hfail : oracle p = none) :
    (classifyRun oracle mc ms (l₁ ++ p :: l₂)).classifiedNew =
      (classifyRun oracle mc ms (l₁ ++ l₂)).classifiedNew ∧
    (classifyRun oracle mc ms (l₁ ++ p :: l₂)).validMoments =
      (classifyRun oracle mc ms (l₁ ++ l₂)).validMoments ∧
    (∀ c ∈ (classifyRun oracle mc ms (l₁ ++ p :: l₂)).classifiedNew, c.post ≠ p) ∧
    (classifyRun oracle mc ms (l₁ ++ p :: l₂)).calls =
      (classifyRun oracle mc ms l₁).calls ++
      (classifyStep oracle mc ms p).calls ++
      (classifyRun oracle mc ms l₂).calls ∧
    (classifyStep oracle mc ms p).calls.length ≤ 1 := by
  have hstep_cls : (classifyStep oracle mc ms p).classifiedNew = [] := by
    by_cases hq : p.score.getD 0 < ms <;>
      simp [classifyStep, hq, hfail, ClassifyOutput.empty]
  have hstep_val : (classifyStep oracle mc ms p).validMoments = [] := by
    by_cases hq : p.score.getD 0 < ms <;>
      simp [classifyStep, hq, hfail, ClassifyOutput.empty]
  have hsplit := ClassifyLemmas.classifyRun_append oracle mc ms l₁ (p :: l₂)
  have hsplit' := ClassifyLemmas.classifyRun_append oracle mc ms l₁ l₂
  rw [ClassifyLemmas.classifyRun_cons] at hsplit
  refine ⟨?_, ?_, ?_, ?_, ?_⟩
  · rw [hsplit, hsplit']
    simp [ClassifyOutput.append, hstep_cls]
  · rw [hsplit, hsplit']
    simp [ClassifyOutput.append, hstep_val]
  · intro c hc hcp
    have := (ClassifyLemmas.mem_classifiedNew oracle mc ms _ c hc).1
    rw [hcp, hfail] at this
    exact Option.noConfusion this
  · rw [hsplit]
    simp [ClassifyOutput.append, List.append_assoc]
  · by_cases hq : p.score.getD 0 < ms <;>
      simp [classifyStep, hq, hfail, ClassifyOutput.empty]

/-- C7 witness: a failing oracle response for the high-score post leaves
both logs exactly as if the post were absent, at the cost of one call. -/
theorem classify_parse_failure_skips_witness :
    oracleFail (⟨"Reddit", "high", "", "https://high", some 10, "Claude"⟩ : Post) = none ∧
    (classifyRun oracleFail 60 5
        ([⟨"Reddit", "low", "", "https://low", some 2, "Claude"⟩] ++
          (⟨"Reddit", "high", "", "https://high", some 10, "Claude"⟩ : Post) ::
          [])).classifiedNew =
      (classifyRun oracleFail 60 5
        ([⟨"Reddit", "low", "", "https://low", some 2, "Claude"⟩] ++ [])).classifiedNew :=
  ⟨rfl,
    (classify_parse_failure_skips oracleFail 60 5
      [⟨"Reddit", "low", "", "https://low", some 2, "Claude"⟩] [] _ rfl).1⟩

/-- The oracle calls made across two consecutive `classify_all` runs over
the same raw log, starting from an empty classified log, when every oracle
response fails to parse: the second run starts from the classified log left
by the first. -/
def c5TwoRunCalls : List Post :=
  (classify_all cRawLog [] oracleFail 60 5).calls ++
    (classify_all cRawLog
      ([] ++ (classify_all cRawLog [] oracleFail 60 5).classifiedNew)
      oracleFail 60 5).calls

/-- C5 counterexample: it is not the case that every raw-log item gets
exactly one classification attempt across runs.  Concretely, over two runs
with `min_score = 5` and an oracle whose responses never parse: the score-2
item is never attempted (zero calls), and the score-10 item is attempted in
both runs (two calls), because a failed attempt writes nothing to the
classified log and is therefore re-attempted on re-invocation. -/
theorem classify_exactly_once_counterexample :
    c5TwoRunCalls.count
      (⟨"Reddit", "low", "", "https://low", some 2, "Claude"⟩ : Post) = 0 ∧
    c5TwoRunCalls.count
      (⟨"Reddit", "high", "", "https://high", some 10, "Claude"⟩ : Post) = 2 ∧
    ¬ (∀ p ∈ cRawLog, c5TwoRunCalls.count p = 1) := by
  refine ⟨by decide, by decide, fun h => ?_⟩
  have := h (⟨"Reddit", "low", "", "https://low", some 2, "Claude"⟩ : Post)
    (by decide)
  revert this
  decide

/-- C5 (amended): `classify_all` never attempts a post whose url is already
on the classified log at the start of the run, and once a post's
classification has been recorded on the classified log by a run, no
subsequent run (over the updated classified log) attempts any post with
that url again — so each url receives at most one successful classification
attempt across runs.  (Items under the score floor receive zero attempts,
and items whose oracle response fails to parse are re-attempted on later
runs, so "exactly one attempt per RawItem" does not hold.) -/
theorem classify_all_attempts_only_unclassified (rawLog : List Post)
    (clsLog : List Classified) (oracle : Post → Option ClassificationResult)
    (mc ms : Int) :
    (∀ p ∈ (classify_all rawLog clsLog oracle mc ms).calls,
      p.url ∉ clsLog.map (fun c => c.post.url)) ∧
    (∀ c ∈ (classify_all rawLog clsLog oracle mc ms).classifiedNew, ∀ p : Post,
      p.url = c.post.url →
      p ∉ (classify_all rawLog
        (clsLog ++ (classify_all rawLog clsLog oracle mc ms).classifiedNew)
        oracle mc ms).calls) := by
  have hcalls : ∀ (cl : List Classified) (p : Post),
      p ∈ (classify_all rawLog cl oracle mc ms).calls →
      p.url ∉ cl.map (fun c => c.post.url) := by
    intro cl p hp
    have hmem := (ClassifyLemmas.mem_calls_iff oracle mc ms
      (postsToClassify rawLog cl) p).mp hp
    exact ((ClassifyLemmas.mem_postsToClassify rawLog cl p).mp hmem.1).2
  refine ⟨hcalls clsLog, ?_⟩
  intro c hc p hurl hp
  have := hcalls _ p hp
  rw [List.map_append] at this
  exact this (List.mem_append.mpr (Or.inr
    (List.mem_map.mpr ⟨c, hc, hurl.symm⟩)))

/-- C5 witness: with an accepting oracle, the first run classifies the
score-10 post; the second run, over the updated classified log, does not
attempt it again. -/
theorem classify_all_attempts_only_unclassified_witness :
    (⟨"Reddit", "high", "", "https://high", some 10, "Claude"⟩ : Post) ∉
      (classify_all cRawLog
        ([] ++ (classify_all cRawLog [] oracleYes 60 5).classifiedNew)
        oracleYes 60 5).calls := by
  refine (classify_all_attempts_only_unclassified cRawLog [] oracleYes 60 5).2
    ⟨⟨"Reddit", "high", "", "https://high", some 10, "Claude"⟩,
      ⟨some true, some "wow", ["activation"], some "Code generation",
        some "q", some "conversation", some "p", some 80⟩⟩
    (by decide)
    (⟨"Reddit", "high", "", "https://high", some 10, "Claude"⟩ : Post)
    rfl

/-- A record of the final accepted log as read by
`generate_html.py::load_moments` / `analyze_patterns`.  Every field is read
with `m.get(key, default)`, hence the `Option`s; `curated` is set
out-of-band by manual curation. -/
structure Moment where
  curated : Option Bool
  confidence : Option Int
  layer : Option String
  growthLevers : List String
  aiTool : Option String
  realization : Option String
deriving DecidableEq, Repr

/-- The sort key of `generate_html.py::load_moments`:
`(x.get("curated", False), x.get("confidence", 0))`. -/
def sortKey (m : Moment) : Bool × Int :=
  (m.curated.getD false, m.confidence.getD 0)

/-- `a` may precede `b` in the output of
`moments.sort(key=..., reverse=True)`: the key of `b` is lexicographically
at most the key of `a` (with `False < True` on the first component). -/
def momLe (a b : Moment) : Prop :=
  ((sortKey b).1 = (sortKey a).1 ∧ (sortKey b).2 ≤ (sortKey a).2) ∨
    ((sortKey b).1 = false ∧ (sortKey a).1 = true)

instance : DecidableRel momLe := fun a b => by
  unfold momLe
  infer_instance

instance : IsTotal Moment momLe := ⟨by
  intro a b
  unfold momLe
  cases hA : (sortKey a).1 <;> cases hB : (sortKey b).1 <;>
    rcases Int.le_total (sortKey b).2 (sortKey a).2 with h | h <;> tauto⟩

instance : IsTrans Moment momLe := ⟨by
  intro a b c hab hbc
  unfold momLe at *
  cases hA : (sortKey a).1 <;> cases hB : (sortKey b).1 <;>
    cases hC : (sortKey c).1 <;> simp_all <;> omega⟩

/-- `generate_html.py::load_moments`, sorting part:
`moments.sort(key=lambda x: (x.get("curated", False), x.get("confidence", 0)), reverse=True)`.
Python's sort is stable, and with `reverse=True` it orders by the key tuple
descending while keeping equal-key elements in their original relative
order; since the stable sort with respect to a total preorder is unique,
the insertion sort with `momLe` is that function. -/
def load_moments (moments : List Moment) : List Moment :=
  List.insertionSort momLe moments

/-- The order the spec describes: curated first, then confidence
descending. -/
def momentBefore (a b : Moment) : Prop :=
  (a.curated.getD false = true ∧ b.curated.getD false = false) ∨
    (a.curated.getD false = b.curated.getD false ∧
      b.confidence.getD 0 ≤ a.confidence.getD 0)

namespace SortLemmas

theorem momLe_iff_momentBefore (a b : Moment) :
    momLe a b ↔ momentBefore a b := by
  unfold momLe momentBefore sortKey
  cases a.curated.getD false <;> cases b.curated.getD false <;> simp

theorem momLe_of_sortKey_eq (a b : Moment) (h : sortKey a = sortKey b) :
    momLe a b :=
  Or.inl ⟨congrArg Prod.fst h.symm, le_of_eq (congrArg Prod.snd h.symm)⟩

theorem filter_orderedInsert (a : Moment) (L : List Moment) (k : Bool × Int) :
    (List.orderedInsert momLe a L).filter (fun m => decide (sortKey m = k)) =
      if sortKey a = k then
        a :: L.filter (fun m => decide (sortKey m = k))
      else L.filter (fun m => decide (sortKey m = k)) := by
  induction L with
  | nil => by_cases h : sortKey a = k <;> simp [List.orderedInsert, h]
  | cons b L ih =>
    by_cases hr : momLe a b
    · by_cases ha : sortKey a = k <;> simp [List.orderedInsert, hr, ha, List.filter_cons]
    · by_cases hb : sortKey b = k
      · have ha : sortKey a ≠ k := by
          intro ha
          exact hr (momLe_of_sortKey_eq a b (ha.trans hb.symm))
        simp [List.orderedInsert, hr, hb, ha, List.filter_cons, ih]
      · by_cases ha : sortKey a = k <;>
          simp [List.orderedInsert, hr, hb, ha, List.filter_cons, ih]

theorem filter_insertionSort (l : List Moment) (k : Bool × Int) :
    (List.insertionSort momLe l).filter (fun m => decide (sortKey m = k)) =
      l.filter (fun m => decide (sortKey m = k)) := by
  induction l with
  | nil => rfl
  | cons a l ih =>
    rw [List.insertionSort, filter_orderedInsert]
    by_cases h : sortKey a = k <;> simp [List.filter_cons, h, ih]

end SortLemmas

/-- C8: `load_moments` returns a permutation of the final-log records,
ordered primarily by the curated flag (curated first) and secondarily by
confidence descending, and the sort is stable: the records with any fixed
(curated, confidence) key keep their original relative order. -/
theorem load_moments_sort_spec (moments : List Moment) :
    (load_moments moments).Perm moments ∧
    List.Sorted momentBefore (load_moments moments) ∧
    (∀ k : Bool × Int,
      (load_moments moments).filter (fun m => decide (sortKey m = k)) =
        moments.filter (fun m => decide (sortKey m = k))) := by
  refine ⟨List.perm_insertionSort momLe moments, ?_,
    fun k => SortLemmas.filter_insertionSort moments k⟩
  exact (List.sorted_insertionSort momLe moments).imp
    (fun h => (SortLemmas.momLe_iff_momentBefore _ _).mp h)

/-- The fixed phrase vocabulary scanned over `realization` in
`generate_html.py::analyze_patterns`. -/
def PHRASES : List String :=
  ["conversation", "dialogue", "partner", "thinking", "first-try",
   "accuracy", "trust", "time", "speed", "document", "pdf"]

/-- Python's substring test `needle in haystack` on character lists: the
needle occurs contiguously somewhere in the haystack. -/
def hasInfix (needle : List Char) : List Char → Bool
  | [] => needle.isEmpty
  | c :: rest => needle.isPrefixOf (c :: rest) || hasInfix needle rest

/-- Python `str.lower()` as a character-wise map (the realization strings
and the vocabulary are ASCII, where this is exact). -/
def pyLower (s : String) : String :=
  ⟨s.data.map Char.toLower⟩

/-- Python `phrase in m.get("realization", "").lower()`. -/
def hasPhrase (m : Moment) (ph : String) : Bool :=
  hasInfix ph.data (pyLower (m.realization.getD "")).data

/-- One `counter[key] += 1` on an insertion-ordered association list, the
behaviour of `collections.Counter` (a dict keeps insertion order; a new key
is appended). -/
def bump (k : String) : List (String × Nat) → List (String × Nat)
  | [] => [(k, 1)]
  | (k', n) :: rest =>
    if k' = k then (k', n + 1) :: rest else (k', n) :: bump k rest

/-- `collections.Counter(ks)` as an insertion-ordered association list. -/
def counterOf (ks : List String) : List (String × Nat) :=
  ks.foldl (fun acc k => bump k acc) []

/-- Look a key up in a counter (0 when absent). -/
def lookupCount (k : String) (c : List (String × Nat)) : Nat :=
  ((c.find? (fun p => p.1 == k)).map Prod.snd).getD 0

/-- The `realization_words` counter of `analyze_patterns`: for each moment
and each vocabulary phrase contained in the lowered realization, add one. -/
def realization_words (moments : List Moment) : List (String × Nat) :=
  moments.foldl (fun acc m =>
    PHRASES.foldl (fun acc2 ph => if hasPhrase m ph then bump ph acc2 else acc2)
      acc) []

/-- Counts descending, the order of `Counter.most_common`. -/
def countGe (p q : String × Nat) : Prop := q.2 ≤ p.2

instance : DecidableRel countGe := fun p q => by
  unfold countGe
  infer_instance

instance : IsTotal (String × Nat) countGe :=
  ⟨fun p q => (Nat.le_total q.2 p.2).elim Or.inl Or.inr⟩

instance : IsTrans (String × Nat) countGe :=
  ⟨fun _ _ _ h1 h2 => Nat.le_trans h2 h1⟩

/-- `Counter.most_common(n)`: the n highest-count entries, ordered by count
descending; by the documented equivalence with
`sorted(..., reverse=True)[:n]` ties keep insertion order, so this is the
stable descending sort followed by `take n`. -/
def most_common (n : Nat) (c : List (String × Nat)) : List (String × Nat) :=
  (List.insertionSort countGe c).take n

/-- The values counted by `Counter(m.get("layer", "unknown") for m in moments)`. -/
def layerValues (ms : List Moment) : List String :=
  ms.map (fun m => m.layer.getD "unknown")

/-- The values counted into the `levers` counter: one occurrence per lever
per moment listing it. -/
def leverValues (ms : List Moment) : List String :=
  ms.flatMap Moment.growthLevers

/-- The values counted by `Counter(m.get("ai_tool", "Unknown") for m in moments)`. -/
def toolValues (ms : List Moment) : List String :=
  ms.map (fun m => m.aiTool.getD "Unknown")

/-- The dictionary returned by `generate_html.py::analyze_patterns`. -/
structure Analysis where
  patterns : List (String × Nat)
  layers : List (String × Nat)
  levers : List (String × Nat)
  tools : List (String × Nat)
  total : Nat
deriving DecidableEq, Repr

/-- `generate_html.py::analyze_patterns`. -/
def analyze_patterns (ms : List Moment) : Analysis :=
  { patterns := most_common 5 (realization_words ms)
    layers := counterOf (layerValues ms)
    levers := counterOf (leverValues ms)
    tools := counterOf (toolValues ms)
    total := ms.length }

/-- The `patterns` list built by `generate_html.py::generate_insights_html`
(lines 63-67): `[(count, ...word...) for word, count in analysis["patterns"][:4]]`.
Only the first FOUR entries of the top-5 list are interpolated into the
document; the surrounding HTML text and `str.title()` casing are
presentation and carry the word unchanged. -/
def insightsPatterns (a : Analysis) : List (Nat × String) :=
  (a.patterns.take 4).map (fun p => (p.2, p.1))

namespace CounterLemmas

theorem lookupCount_nil (k : String) : lookupCount k [] = 0 := rfl

theorem lookupCount_bump (k k' : String) (c : List (String × Nat)) :
    lookupCount k (bump k' c) =
      if k' = k then lookupCount k c + 1 else lookupCount k c := by
  induction c with
  | nil =>
    by_cases h : k' = k <;> simp [bump, lookupCount, List.find?_cons, h]
  | cons a c ih =>
    obtain ⟨a1, a2⟩ := a
    by_cases h1 : a1 = k'
    · subst h1
      by_cases h : a1 = k <;>
        simp [bump, lookupCount, List.find?_cons, h]
    · by_cases h2 : a1 = k
      · subst h2
        have : ¬ k' = a1 := fun e => h1 e.symm
        simp [bump, h1, lookupCount, List.find?_cons, this]
      · simp only [bump, if_neg h1]
        have hb : (a1 == k) = false := by simp [h2]
        by_cases h : k' = k <;>
          simpa [lookupCount, List.find?_cons, hb, h] using ih

theorem lookupCount_foldl_bump (ks : List String)
    (acc : List (String × Nat)) (k : String) :
    lookupCount k (ks.foldl (fun a x => bump x a) acc) =
      lookupCount k acc + ks.count k := by
  induction ks generalizing acc with
  | nil => simp
  | cons x ks ih =>
    rw [List.foldl_cons, ih, lookupCount_bump, List.count_cons]
    by_cases h : x = k
    · simp only [h, if_pos rfl, beq_self_eq_true, if_true]
      omega
    · have hb : (x == k) = false := by simp [h]
      simp [h, hb]

theorem lookupCount_counterOf (ks : List String) (k : String) :
    lookupCount k (counterOf ks) = ks.count k := by
  rw [counterOf, lookupCount_foldl_bump, lookupCount_nil, Nat.zero_add]

theorem keys_bump (k : String) (c : List (String × Nat)) :
    (bump k c).map Prod.fst =
      if k ∈ c.map Prod.fst then c.map Prod.fst else c.map Prod.fst ++ [k] := by
  induction c with
  | nil => simp [bump]
  | cons a c ih =>
    obtain ⟨a1, a2⟩ := a
    by_cases h : a1 = k
    · simp [bump, h]
    · have : ¬ k = a1 := fun e => h e.symm
      simp only [bump, if_neg h, List.map_cons, ih, List.mem_cons, this,
        false_or]
      by_cases hm : k ∈ c.map Prod.fst <;> simp [hm]

theorem nodup_keys_bump (k : String) (c : List (String × Nat))
    (h : (c.map Prod.fst).Nodup) : ((bump k c).map Prod.fst).Nodup := by
  rw [keys_bump]
  by_cases hm : k ∈ c.map Prod.fst
  · simpa [hm] using h
  · rw [if_neg hm, List.nodup_append]
    exact ⟨h, List.nodup_singleton k, fun a ha hb => hm ((List.mem_singleton.mp hb) ▸ ha)⟩

theorem mem_keys_bump (k x : String) (c : List (String × Nat))
    (h : x ∈ (bump k c).map Prod.fst) : x = k ∨ x ∈ c.map Prod.fst := by
  rw [keys_bump] at h
  by_cases hm : k ∈ c.map Prod.fst
  · exact Or.inr (by simpa [hm] using h)
  · rw [if_neg hm, List.mem_append] at h
    exact h.elim Or.inr (fun hx => Or.inl (List.mem_singleton.mp hx))

theorem nodup_keys_foldl_bump (ks : List String) (acc : List (String × Nat))
    (h : (acc.map Prod.fst).Nodup) :
    (((ks.foldl (fun a x => bump x a) acc)).map Prod.fst).Nodup := by
  induction ks generalizing acc with
  | nil => simpa using h
  | cons x ks ih => exact ih (bump x acc) (nodup_keys_bump x acc h)

theorem nodup_keys_counterOf (ks : List String) :
    ((counterOf ks).map Prod.fst).Nodup :=
  nodup_keys_foldl_bump ks [] (by simp)

theorem mem_keys_foldl_bump (ks : List String) (acc : List (String × Nat))
    (x : String) (h : x ∈ ((ks.foldl (fun a k => bump k a) acc)).map Prod.fst) :
    x ∈ acc.map Prod.fst ∨ x ∈ ks := by
  induction ks generalizing acc with
  | nil => exact Or.inl (by simpa using h)
  | cons y ks ih =>
    rcases ih (bump y acc) h with hx | hx
    · rcases mem_keys_bump y x acc hx with rfl | hx
      · exact Or.inr (List.mem_cons_self _ _)
      · exact Or.inl hx
    · exact Or.inr (List.mem_cons_of_mem _ hx)

theorem find?_of_mem_of_nodup_keys (c : List (String × Nat))
    (hn : (c.map Prod.fst).Nodup) (k : String) (n : Nat) (h : (k, n) ∈ c) :
    c.find? (fun p => p.1 == k) = some (k, n) := by
  induction c with
  | nil => simp at h
  | cons a c ih =>
    obtain ⟨a1, a2⟩ := a
    rcases List.mem_cons.mp h with he | hm
    · rw [← he]
      simp [List.find?_cons]
    · have ha1 : a1 ≠ k := by
        intro e
        subst e
        have : a1 ∈ c.map Prod.fst := List.mem_map.mpr ⟨(a1, n), hm, rfl⟩
        exact (List.nodup_cons.mp (by simpa using hn)).1 this
      have hb : (a1 == k) = false := by simp [ha1]
      simp only [List.find?_cons, hb]
      exact ih (List.nodup_cons.mp (by simpa using hn)).2 hm

theorem value_of_mem_counterOf (ks : List String) (k : String) (n : Nat)
    (h : (k, n) ∈ counterOf ks) : n = ks.count k := by
  have hf := find?_of_mem_of_nodup_keys (counterOf ks)
    (nodup_keys_counterOf ks) k n h
  have : lookupCount k (counterOf ks) = n := by
    rw [lookupCount, hf]
    rfl
  rw [← this, lookupCount_counterOf]

end CounterLemmas

/-- The vocabulary phrases a given moment's lowered realization contains,
in vocabulary order. -/
def momentPhrases (m : Moment) : List String :=
  PHRASES.filter (fun ph => hasPhrase m ph)

namespace PatternLemmas

theorem foldl_bump_filter (m : Moment) (l : List String)
    (acc : List (String × Nat)) :
    l.foldl (fun acc2 ph => if hasPhrase m ph then bump ph acc2 else acc2) acc =
      (l.filter (fun ph => hasPhrase m ph)).foldl (fun a x => bump x a) acc := by
  induction l generalizing acc with
  | nil => rfl
  | cons ph l ih =>
    rw [List.foldl_cons, List.filter_cons]
    by_cases h : hasPhrase m ph = true
    · rw [if_pos h, if_pos h, List.foldl_cons, ih]
    · rw [if_neg h, if_neg (by simpa using h), ih]

theorem realization_words_eq (ms : List Moment) :
    realization_words ms = counterOf (ms.flatMap momentPhrases) := by
  suffices h : ∀ acc : List (String × Nat),
      ms.foldl (fun acc m =>
        PHRASES.foldl
          (fun acc2 ph => if hasPhrase m ph then bump ph acc2 else acc2) acc)
        acc =
      (ms.flatMap momentPhrases).foldl (fun a x => bump x a) acc by
    exact h []
  induction ms with
  | nil => intro acc; rfl
  | cons m ms ih =>
    intro acc
    rw [List.foldl_cons, ih, foldl_bump_filter, List.flatMap_cons,
      List.foldl_append]
    rfl

theorem count_momentPhrases (m : Moment) (ph : String) (hph : ph ∈ PHRASES) :
    (momentPhrases m).count ph = if hasPhrase m ph then 1 else 0 := by
  by_cases h : hasPhrase m ph = true
  · rw [if_pos h, momentPhrases, List.count_filter (by simpa using h)]
    exact List.count_eq_one_of_mem (by decide) hph
  · rw [if_neg (by simpa using h)]
    apply List.count_eq_zero_of_not_mem
    intro hmem
    exact h (List.mem_filter.mp hmem).2

theorem count_flatMap_momentPhrases (ms : List Moment) (ph : String)
    (hph : ph ∈ PHRASES) :
    (ms.flatMap momentPhrases).count ph =
      (ms.filter (fun m => hasPhrase m ph)).length := by
  induction ms with
  | nil => simp
  | cons m ms ih =>
    rw [List.flatMap_cons, List.count_append, ih,
      count_momentPhrases m ph hph, List.filter_cons]
    by_cases h : hasPhrase m ph = true
    · simp [h]
      omega
    · simp [h]

theorem mem_realization_words (ms : List Moment) (ph : String) (n : Nat)
    (h : (ph, n) ∈ realization_words ms) :
    ph ∈ PHRASES ∧ n = (ms.filter (fun m => hasPhrase m ph)).length := by
  rw [realization_words_eq] at h
  have hkey : ph ∈ (counterOf (ms.flatMap momentPhrases)).map Prod.fst :=
    List.mem_map.mpr ⟨(ph, n), h, rfl⟩
  have hmem : ph ∈ ms.flatMap momentPhrases := by
    rcases CounterLemmas.mem_keys_foldl_bump _ [] ph hkey with hx | hx
    · simp at hx
    · exact hx
  rcases List.mem_flatMap.mp hmem with ⟨m, _, hm⟩
  have hph : ph ∈ PHRASES := (List.mem_filter.mp hm).1
  refine ⟨hph, ?_⟩
  rw [CounterLemmas.value_of_mem_counterOf _ ph n h,
    count_flatMap_momentPhrases ms ph hph]

end PatternLemmas

/-- C9 (amended): `analyze_patterns` computes the frequency count of
moments by layer (default "unknown"), the multi-valued frequency count of
growth levers (each moment contributing once to each lever it lists), the
frequency count by AI tool (default "Unknown"), the total, and the
keyword-phrase scan of `realization` against the fixed vocabulary: the
`patterns` field holds the (at most) five highest-count phrases in count-
descending order, each entry being a vocabulary phrase paired with the
number of moments whose lowered realization contains it.  The insights
panel of the output document, however, reports only the first FOUR of
those entries (`analysis["patterns"][:4]`). -/
theorem analyze_patterns_spec (ms : List Moment) :
    (∀ l, lookupCount l (analyze_patterns ms).layers = (layerValues ms).count l) ∧
    (∀ v, lookupCount v (analyze_patterns ms).levers = (leverValues ms).count v) ∧
    (∀ t, lookupCount t (analyze_patterns ms).tools = (toolValues ms).count t) ∧
    (analyze_patterns ms).total = ms.length ∧
    (analyze_patterns ms).patterns.length = min 5 (realization_words ms).length ∧
    List.Sorted countGe (analyze_patterns ms).patterns ∧
    (∀ p ∈ (analyze_patterns ms).patterns, p.1 ∈ PHRASES ∧
      p.2 = (ms.filter (fun m => hasPhrase m p.1)).length) ∧
    insightsPatterns (analyze_patterns ms) =
      ((analyze_patterns ms).patterns.take 4).map (fun p => (p.2, p.1)) ∧
    (insightsPatterns (analyze_patterns ms)).length ≤ 4 := by
  refine ⟨fun l => CounterLemmas.lookupCount_counterOf _ l,
    fun v => CounterLemmas.lookupCount_counterOf _ v,
    fun t => CounterLemmas.lookupCount_counterOf _ t,
    rfl, ?_, ?_, ?_, rfl, ?_⟩
  · show (most_common 5 (realization_words ms)).length = _
    rw [most_common, List.length_take,
      (List.perm_insertionSort countGe (realization_words ms)).length_eq]
  · exact (List.sorted_insertionSort countGe (realization_words ms)).sublist
      (List.take_sublist 5 _)
  · intro p hp
    have hmem : p ∈ realization_words ms :=
      ((List.perm_insertionSort countGe (realization_words ms)).mem_iff).mp
        (List.take_subset 5 _ hp)
    obtain ⟨p1, p2⟩ := p
    exact PatternLemmas.mem_realization_words ms p1 p2 hmem
  · rw [insightsPatterns, List.length_map, List.length_take]
    omega

/-- The final-log contents used by the C9 counterexample and witness: five
accepted moments whose realizations each contain exactly one distinct
vocabulary phrase. -/
def c9Moments : List Moment :=
  [⟨none, some 80, some "wow", ["activation"], some "Claude", some "conversation"⟩,
   ⟨none, some 81, some "how", ["retention"], some "Claude", some "dialogue"⟩,
   ⟨none, some 82, some "wow", [], some "ChatGPT", some "partner"⟩,
   ⟨none, some 83, some "what", ["b2b"], some "Gemini", some "thinking"⟩,
   ⟨none, some 84, some "wow", [], some "Claude", some "trust"⟩]

/-- C9 counterexample: on `c9Moments` the analysis computes five pattern
phrases ("trust" among them), but the output document's insights panel
reports only four, and "trust" — the fifth — is absent from it.  So "the
top 5 phrases are reported in the output document" fails. -/
theorem analyze_patterns_top5_counterexample :
    (analyze_patterns c9Moments).patterns.length = 5 ∧
    ("trust", 1) ∈ (analyze_patterns c9Moments).patterns ∧
    (insightsPatterns (analyze_patterns c9Moments)).length = 4 ∧
    (∀ q ∈ insightsPatterns (analyze_patterns c9Moments), q.2 ≠ "trust") := by
  refine ⟨by decide, by decide, by decide, by decide⟩

/-- C9 witness: the amended theorem applied to `c9Moments`, discharging the
membership hypothesis of the per-pattern characterization concretely. -/
theorem analyze_patterns_spec_witness :
    ("trust", 1) ∈ (analyze_patterns c9Moments).patterns ∧
    ("trust" ∈ PHRASES ∧
      1 = (c9Moments.filter (fun m => hasPhrase m "trust")).length) :=
  ⟨by decide,
    (analyze_patterns_spec c9Moments).2.2.2.2.2.2.1 ("trust", 1) (by decide)⟩

/-- The whitespace characters removed by Python `str.strip()` (ASCII
whitespace: space, tab, newline, carriage return, vertical tab, form
feed). -/
def isPyWs (c : Char) : Bool :=
  c == ' ' || c == '\t' || c == '\n' || c == '\r' ||
    c == Char.ofNat 11 || c == Char.ofNat 12

/-- Python `str.strip()` on character lists: drop whitespace from both
ends. -/
def stripCs (l : List Char) : List Char :=
  ((l.dropWhile isPyWs).reverse.dropWhile isPyWs).reverse

/-- Python `str.strip()`. -/
def pyStrip (s : String) : String :=
  ⟨stripCs s.data⟩

/-- Locate the first occurrence of (non-empty) `sep`: returns the part
before it and the part after it, or `none` when `sep` does not occur. -/
def findSplit (sep : List Char) : List Char → Option (List Char × List Char)
  | [] => none
  | c :: rest =>
    if sep.isPrefixOf (c :: rest) then some ([], (c :: rest).drop sep.length)
    else
      match findSplit sep rest with
      | some (pre, post) => some (c :: pre, post)
      | none => none

/-- Python `str.split(sep)` for a non-empty `sep`, written with explicit
fuel; each found occurrence strictly shortens the remainder by at least
`sep.length ≥ 1` characters, so fuel `l.length + 1` never runs out. -/
def splitGo (sep : List Char) : Nat → List Char → List (List Char)
  | 0, l => [l]
  | fuel + 1, l =>
    match findSplit sep l with
    | none => [l]
    | some (pre, post) => pre :: splitGo sep fuel post

/-- Python `str.split(sep)` for a non-empty `sep`. -/
def pySplit (sep l : List Char) : List (List Char) :=
  splitGo sep (l.length + 1) l

/-- The fence marker. -/
def backticksCs : List Char := ['`', '`', '`']

/-- The fence language tag, whose 4 characters are dropped by
`response_text[4:]`. -/
def jsonTagCs : List Char := ['j', 's', 'o', 'n']

/-- The unwrap step of `classify.py::classify_post` (lines 71-79) on
character lists:
`response_text = response_text.strip()`; if it starts with a fence marker,
take `split("```")[1]` (the Python index access cannot fail here because the
guard guarantees an occurrence, hence at least two split parts), drop a
leading `"json"` tag, and strip again. -/
def unwrapCs (raw : List Char) : List Char :=
  let t := stripCs raw
  if backticksCs.isPrefixOf t then
    let t1 := (pySplit backticksCs t).getD 1 []
    let t2 := if jsonTagCs.isPrefixOf t1 then t1.drop 4 else t1
    stripCs t2
  else t

/-- The unwrap step of `classify.py::classify_post` on strings. -/
def unwrapResponse (raw : String) : String :=
  ⟨unwrapCs raw.data⟩

namespace UnwrapLemmas

theorem data_append (a b : String) : (a ++ b).data = a.data ++ b.data := rfl

theorem hasInfix_iff (needle l : List Char) :
    hasInfix needle l = true ↔ needle <:+: l := by
  induction l with
  | nil =>
    simp only [hasInfix, List.isEmpty_iff, List.infix_nil]
  | cons c rest ih =>
    simp only [hasInfix, Bool.or_eq_true, ih, List.infix_cons_iff]
    constructor
    · rintro (h | h)
      · exact Or.inl (List.isPrefixOf_iff_prefix.mp h)
      · exact Or.inr h
    · rintro (h | h)
      · exact Or.inl (List.isPrefixOf_iff_prefix.mpr h)
      · exact Or.inr h

theorem stripCs_nil : stripCs [] = [] := rfl

theorem stripCs_cons_ws (c : Char) (l : List Char) (h : isPyWs c = true) :
    stripCs (c :: l) = stripCs l := by
  simp [stripCs, List.dropWhile_cons, h]

theorem stripCs_append_ws (l : List Char) (c : Char) (h : isPyWs c = true) :
    stripCs (l ++ [c]) = stripCs l := by
  cases he : l.dropWhile isPyWs with
  | nil =>
    rw [stripCs, stripCs, List.dropWhile_append, he]
    simp [List.dropWhile_cons, h]
  | cons a t =>
    rw [stripCs, stripCs, List.dropWhile_append, he]
    simp only [List.isEmpty_cons, if_false, Bool.false_eq_true]
    rw [List.reverse_append]
    simp [List.dropWhile_cons, h]

theorem stripCs_no_ws_ends (a b : Char) (m : List Char)
    (ha : isPyWs a = false) (hb : isPyWs b = false) :
    stripCs (a :: m ++ [b]) = a :: m ++ [b] := by
  have h1 : List.dropWhile isPyWs (a :: m ++ [b]) = a :: m ++ [b] := by
    simp [List.dropWhile_cons, ha]
  have h2 : (a :: m ++ [b]).reverse = b :: (a :: m).reverse := by
    rw [show a :: m ++ [b] = (a :: m) ++ [b] from rfl, List.reverse_append]
    rfl
  have h3 : List.dropWhile isPyWs (b :: (a :: m).reverse) =
      b :: (a :: m).reverse := by
    simp [List.dropWhile_cons, hb]
  rw [stripCs, h1, h2, h3, ← h2, List.reverse_reverse]

end UnwrapLemmas

namespace UnwrapLemmas

theorem findSplit_append (sep rest : List Char) (hsep : sep ≠ [])
    (mid : List Char)
    (hno : ∀ m₁ m₂, mid = m₁ ++ m₂ → m₂ ≠ [] →
      sep.isPrefixOf (m₂ ++ sep ++ rest) = false) :
    findSplit sep (mid ++ sep ++ rest) = some (mid, rest) := by
  induction mid with
  | nil =>
    cases sep with
    | nil => exact absurd rfl hsep
    | cons s sep' =>
      rw [List.nil_append,
        show (s :: sep') ++ rest = s :: (sep' ++ rest) from rfl, findSplit]
      have hp : (s :: sep').isPrefixOf (s :: (sep' ++ rest)) = true :=
        List.isPrefixOf_iff_prefix.mpr ⟨rest, rfl⟩
      rw [if_pos hp]
      have hd : (s :: (sep' ++ rest)).drop (s :: sep').length = rest := by
        rw [show s :: (sep' ++ rest) = (s :: sep') ++ rest from rfl]
        exact List.drop_left _ _
      rw [hd]
  | cons c mid' ih =>
    have h1 : sep.isPrefixOf (c :: (mid' ++ (sep ++ rest))) = false := by
      have := hno [] (c :: mid') rfl (by simp)
      simpa [List.append_assoc] using this
    have hgoal : (c :: mid') ++ sep ++ rest = c :: (mid' ++ (sep ++ rest)) := by
      simp [List.append_assoc]
    rw [hgoal, findSplit, if_neg (by rw [h1]; simp)]
    have ihno : ∀ m₁ m₂, mid' = m₁ ++ m₂ → m₂ ≠ [] →
        sep.isPrefixOf (m₂ ++ sep ++ rest) = false := by
      intro m₁ m₂ he hne
      exact hno (c :: m₁) m₂ (by rw [he]; rfl) hne
    rw [show mid' ++ (sep ++ rest) = mid' ++ sep ++ rest from
      (List.append_assoc _ _ _).symm, ih ihno]

theorem prefix_of_append_brk (b : List Char) (brk : Char) :
    ∀ (a sep : List Char), brk ∉ sep → sep <+: a ++ brk :: b → sep <+: a := by
  intro a
  induction a with
  | nil =>
    intro sep hbrk h
    cases sep with
    | nil => exact List.nil_prefix
    | cons s sep' =>
      rw [List.nil_append] at h
      rcases List.cons_prefix_cons.mp h with ⟨rfl, _⟩
      exact absurd (List.mem_cons_self _ _) hbrk
  | cons x a' ih =>
    intro sep hbrk h
    cases sep with
    | nil => exact List.nil_prefix
    | cons s sep' =>
      rw [List.cons_append] at h
      rcases List.cons_prefix_cons.mp h with ⟨rfl, h'⟩
      have hbrk' : brk ∉ sep' := fun hx => hbrk (List.mem_cons_of_mem _ hx)
      exact List.cons_prefix_cons.mpr ⟨rfl, ih sep' hbrk' h'⟩

theorem infix_split (sep b : List Char) (brk : Char) (hsep : sep ≠ [])
    (hbrk : brk ∉ sep) :
    ∀ a, sep <:+: a ++ brk :: b → sep <:+: a ∨ sep <:+: b := by
  intro a
  induction a with
  | nil =>
    intro h
    rw [List.nil_append] at h
    rcases List.infix_cons_iff.mp h with hp | hi
    · cases sep with
      | nil => exact absurd rfl hsep
      | cons s sep' =>
        rcases List.cons_prefix_cons.mp hp with ⟨rfl, _⟩
        exact absurd (List.mem_cons_self _ _) hbrk
    · exact Or.inr hi
  | cons x a' ih =>
    intro h
    rw [List.cons_append] at h
    rcases List.infix_cons_iff.mp h with hp | hi
    · have hp' : sep <+: (x :: a') ++ brk :: b := by rwa [List.cons_append]
      exact Or.inl (prefix_of_append_brk b brk (x :: a') sep hbrk hp').isInfix
    · rcases ih hi with h1 | h2
      · exact Or.inl (List.infix_cons h1)
      · exact Or.inr h2

theorem getLast?_of_append_ne_nil (m₁ m₂ : List Char) (y : Char)
    (h : m₂.getLast? = some y) : (m₁ ++ m₂).getLast? = some y := by
  rw [List.getLast?_append, h]
  rfl

theorem no_early_occurrence (mid : List Char)
    (hlast : mid.getLast? = some '\n')
    (hno : ¬ backticksCs <:+: mid) :
    ∀ m₁ m₂, mid = m₁ ++ m₂ → m₂ ≠ [] →
      backticksCs.isPrefixOf (m₂ ++ backticksCs ++ []) = false := by
  intro m₁ m₂ he hne
  rw [List.append_nil]
  by_contra hx
  have hp : backticksCs <+: m₂ ++ backticksCs :=
    List.isPrefixOf_iff_prefix.mp (by simpa using hx)
  match m₂, hne with
  | [c1], _ =>
    rcases List.cons_prefix_cons.mp hp with ⟨hc1, _⟩
    have hl : mid.getLast? = some c1 := by
      rw [he]
      exact getLast?_of_append_ne_nil m₁ [c1] c1 rfl
    rw [hlast] at hl
    have hc : '\n' = c1 := Option.some.inj hl
    exact absurd (hc1.trans hc.symm) (by decide)
  | [c1, c2], _ =>
    rcases List.cons_prefix_cons.mp hp with ⟨hc1, hp2⟩
    rcases List.cons_prefix_cons.mp hp2 with ⟨hc2, _⟩
    have hl : mid.getLast? = some c2 := by
      rw [he]
      exact getLast?_of_append_ne_nil m₁ [c1, c2] c2 rfl
    rw [hlast] at hl
    have hc : '\n' = c2 := Option.some.inj hl
    exact absurd (hc2.trans hc.symm) (by decide)
  | c1 :: c2 :: c3 :: r, _ =>
    rcases List.cons_prefix_cons.mp hp with ⟨hc1, hp2⟩
    rcases List.cons_prefix_cons.mp hp2 with ⟨hc2, hp3⟩
    rcases List.cons_prefix_cons.mp hp3 with ⟨hc3, _⟩
    apply hno
    refine ⟨m₁, r, ?_⟩
    rw [he, ← hc1, ← hc2, ← hc3]
    simp [backticksCs, List.append_assoc]

end UnwrapLemmas

namespace UnwrapLemmas

theorem splitGo_succ_found (sep : List Char) (fuel : Nat) (l pre post : List Char)
    (h : findSplit sep l = some (pre, post)) :
    splitGo sep (fuel + 1) l = pre :: splitGo sep fuel post := by
  simp only [splitGo, h]

theorem pySplit_extract (mid : List Char) (hlast : mid.getLast? = some '\n')
    (hno : ¬ backticksCs <:+: mid) :
    (pySplit backticksCs (backticksCs ++ mid ++ backticksCs)).getD 1 [] = mid := by
  have h1 : findSplit backticksCs (backticksCs ++ (mid ++ backticksCs)) =
      some ([], mid ++ backticksCs) := by
    have hvac : ∀ m₁ m₂, ([] : List Char) = m₁ ++ m₂ → m₂ ≠ [] →
        backticksCs.isPrefixOf (m₂ ++ backticksCs ++ (mid ++ backticksCs)) = false := by
      intro m₁ m₂ he hne
      rcases List.append_eq_nil.mp he.symm with ⟨_, h2⟩
      exact absurd h2 hne
    have := findSplit_append backticksCs (mid ++ backticksCs) (by decide) [] hvac
    simpa using this
  have h2 : findSplit backticksCs (mid ++ backticksCs) = some (mid, []) := by
    have := findSplit_append backticksCs [] (by decide) mid
      (no_early_occurrence mid hlast hno)
    simpa using this
  show (splitGo backticksCs ((backticksCs ++ mid ++ backticksCs).length + 1)
    (backticksCs ++ mid ++ backticksCs)).getD 1 [] = mid
  have hassoc : backticksCs ++ mid ++ backticksCs =
      backticksCs ++ (mid ++ backticksCs) := by
    simp [List.append_assoc]
  have hlen : (backticksCs ++ mid ++ backticksCs).length + 1 =
      ((mid.length + 5) + 1) + 1 := by
    simp only [List.length_append, backticksCs, List.length_cons,
      List.length_nil]
    omega
  rw [hlen, hassoc, splitGo_succ_found _ _ _ _ _ h1,
    splitGo_succ_found _ _ _ _ _ h2]
  rfl

end UnwrapLemmas

namespace UnwrapLemmas

theorem not_infix_nil_bt : ¬ backticksCs <:+: ([] : List Char) := by
  intro h
  have := List.infix_nil.mp h
  simp [backticksCs] at this

theorem no_bt_infix_append_nl (sL : List Char) (hno : ¬ backticksCs <:+: sL) :
    ¬ backticksCs <:+: sL ++ ['\n'] := by
  intro h
  have hsplit := infix_split backticksCs [] '\n' (by decide) (by decide) sL h
  rcases hsplit with h1 | h1
  · exact hno h1
  · exact not_infix_nil_bt h1

theorem getLast?_append_nl (sL : List Char) :
    (sL ++ ['\n']).getLast? = some '\n' :=
  getLast?_of_append_ne_nil sL ['\n'] '\n' rfl

theorem unwrapCs_fenced_json (sL : List Char)
    (hno : ¬ backticksCs <:+: sL) :
    unwrapCs (backticksCs ++ (jsonTagCs ++ '\n' :: (sL ++ ['\n'])) ++ backticksCs) =
      stripCs sL := by
  have hlast : (jsonTagCs ++ '\n' :: (sL ++ ['\n'])).getLast? = some '\n' := by
    apply getLast?_of_append_ne_nil
    rw [show ('\n' :: (sL ++ ['\n'])) = ['\n'] ++ (sL ++ ['\n']) from rfl]
    exact getLast?_of_append_ne_nil _ _ _ (getLast?_append_nl sL)
  have hnoMid : ¬ backticksCs <:+: jsonTagCs ++ '\n' :: (sL ++ ['\n']) := by
    intro h
    rcases infix_split backticksCs (sL ++ ['\n']) '\n' (by decide) (by decide)
      jsonTagCs h with h1 | h1
    · exact absurd ((hasInfix_iff _ _).mpr h1) (by decide)
    · exact no_bt_infix_append_nl sL hno h1
  have hstrip : stripCs (backticksCs ++ (jsonTagCs ++ '\n' :: (sL ++ ['\n'])) ++
      backticksCs) =
      backticksCs ++ (jsonTagCs ++ '\n' :: (sL ++ ['\n'])) ++ backticksCs := by
    have hshape : ∀ m : List Char, backticksCs ++ m ++ backticksCs =
        '`' :: (('`' :: '`' :: m) ++ ['`', '`']) ++ ['`'] := by
      intro m
      simp [backticksCs, List.append_assoc]
    rw [hshape]
    exact stripCs_no_ws_ends '`' '`' _ (by decide) (by decide)
  have hpfx : backticksCs.isPrefixOf (backticksCs ++
      (jsonTagCs ++ '\n' :: (sL ++ ['\n'])) ++ backticksCs) = true := by
    apply List.isPrefixOf_iff_prefix.mpr
    exact ⟨(jsonTagCs ++ '\n' :: (sL ++ ['\n'])) ++ backticksCs, by
      simp [List.append_assoc]⟩
  have hsplit := pySplit_extract (jsonTagCs ++ '\n' :: (sL ++ ['\n'])) hlast hnoMid
  have htag : jsonTagCs.isPrefixOf (jsonTagCs ++ '\n' :: (sL ++ ['\n'])) = true :=
    List.isPrefixOf_iff_prefix.mpr ⟨'\n' :: (sL ++ ['\n']), rfl⟩
  have hdrop : (jsonTagCs ++ '\n' :: (sL ++ ['\n'])).drop 4 =
      '\n' :: (sL ++ ['\n']) := rfl
  simp only [unwrapCs, hstrip, hpfx, if_true, hsplit, htag, hdrop]
  rw [stripCs_cons_ws _ _ (by decide), stripCs_append_ws _ _ (by decide)]

theorem unwrapCs_fenced_plain (sL : List Char)
    (hno : ¬ backticksCs <:+: sL) :
    unwrapCs (backticksCs ++ ('\n' :: (sL ++ ['\n'])) ++ backticksCs) =
      stripCs sL := by
  have hlast : ('\n' :: (sL ++ ['\n'])).getLast? = some '\n' := by
    rw [show ('\n' :: (sL ++ ['\n'])) = ['\n'] ++ (sL ++ ['\n']) from rfl]
    exact getLast?_of_append_ne_nil _ _ _ (getLast?_append_nl sL)
  have hnoMid : ¬ backticksCs <:+: '\n' :: (sL ++ ['\n']) := by
    intro h
    rcases infix_split backticksCs (sL ++ ['\n']) '\n' (by decide) (by decide)
      [] (by simpa using h) with h1 | h1
    · exact not_infix_nil_bt h1
    · exact no_bt_infix_append_nl sL hno h1
  have hstrip : stripCs (backticksCs ++ ('\n' :: (sL ++ ['\n'])) ++
      backticksCs) =
      backticksCs ++ ('\n' :: (sL ++ ['\n'])) ++ backticksCs := by
    have hshape : ∀ m : List Char, backticksCs ++ m ++ backticksCs =
        '`' :: (('`' :: '`' :: m) ++ ['`', '`']) ++ ['`'] := by
      intro m
      simp [backticksCs, List.append_assoc]
    rw [hshape]
    exact stripCs_no_ws_ends '`' '`' _ (by decide) (by decide)
  have hpfx : backticksCs.isPrefixOf (backticksCs ++
      ('\n' :: (sL ++ ['\n'])) ++ backticksCs) = true := by
    apply List.isPrefixOf_iff_prefix.mpr
    exact ⟨('\n' :: (sL ++ ['\n'])) ++ backticksCs, by simp [List.append_assoc]⟩
  have hsplit := pySplit_extract ('\n' :: (sL ++ ['\n'])) hlast hnoMid
  have htag : jsonTagCs.isPrefixOf ('\n' :: (sL ++ ['\n'])) = false := by
    simp [jsonTagCs, List.isPrefixOf]
  simp only [unwrapCs, hstrip, hpfx, if_true, hsplit, htag, Bool.false_eq_true,
    if_false]
  rw [stripCs_cons_ws _ _ (by decide), stripCs_append_ws _ _ (by decide)]

theorem unwrapCs_unfenced (sL : List Char)
    (hjson : (stripCs sL).head? = some '{') :
    unwrapCs sL = stripCs sL := by
  have hpfx : backticksCs.isPrefixOf (stripCs sL) = false := by
    cases hs : stripCs sL with
    | nil => simp [hs] at hjson
    | cons c rest =>
      rw [hs] at hjson
      have : c = '{' := by simpa using hjson
      subst this
      simp [backticksCs, List.isPrefixOf]
  simp only [unwrapCs, hpfx, Bool.false_eq_true, if_false]

end UnwrapLemmas

namespace UnwrapLemmas

theorem dropWhile_head?_false (p : Char → Bool) :
    ∀ (l : List Char) (a : Char), (l.dropWhile p).head? = some a → p a = false := by
  intro l
  induction l with
  | nil => intro a h; simp at h
  | cons c rest ih =>
    intro a h
    rw [List.dropWhile_cons] at h
    by_cases hc : p c = true
    · rw [if_pos hc] at h
      exact ih a h
    · rw [if_neg hc] at h
      have : c = a := by simpa using h
      subst this
      exact Bool.eq_false_iff.mpr hc

theorem dropWhile_eq_self_of_head? (p : Char → Bool) (l : List Char)
    (h : ∀ a, l.head? = some a → p a = false) : l.dropWhile p = l := by
  cases l with
  | nil => rfl
  | cons c rest =>
    rw [List.dropWhile_cons, if_neg]
    rw [h c rfl]
    simp

theorem stripCs_idem (l : List Char) : stripCs (stripCs l) = stripCs l := by
  have hd : stripCs l =
      ((l.dropWhile isPyWs).reverse.dropWhile isPyWs).reverse := rfl
  cases he : (l.dropWhile isPyWs).reverse.dropWhile isPyWs with
  | nil => rw [hd, he]; rfl
  | cons b e' =>
    set e := (l.dropWhile isPyWs).reverse.dropWhile isPyWs with hedef
    rw [hd]
    obtain ⟨pre, hpre⟩ : e <:+ (l.dropWhile isPyWs).reverse :=
      List.dropWhile_suffix isPyWs
    have hdval : l.dropWhile isPyWs = e.reverse ++ pre.reverse := by
      have : (pre ++ e).reverse = (l.dropWhile isPyWs).reverse.reverse := by
        rw [hpre]
      rw [List.reverse_reverse, List.reverse_append] at this
      exact this.symm
    have hB : e.dropWhile isPyWs = e := by
      apply dropWhile_eq_self_of_head?
      intro a ha
      have : ((l.dropWhile isPyWs).reverse.dropWhile isPyWs).head? = some a := by
        rw [← hedef]; exact ha
      exact dropWhile_head?_false isPyWs _ a this
    have hA : e.reverse.dropWhile isPyWs = e.reverse := by
      apply dropWhile_eq_self_of_head?
      intro a ha
      have hdh : (l.dropWhile isPyWs).head? = some a := by
        rw [hdval, List.head?_append, ha]
        rfl
      exact dropWhile_head?_false isPyWs l a hdh
    show stripCs e.reverse = e.reverse
    rw [stripCs, hA, List.reverse_reverse, hB]

end UnwrapLemmas

/-- C6 (amended): for every oracle response text that is a valid JSON
object — its stripped form starts with `{` — and that does not itself
contain the fence marker ```` ``` ````, the unwrap step of `classify_post`
recovers the stripped JSON text exactly, whether the response is bare,
wrapped in a fenced code block with the `json` language tag, or wrapped in
a fenced code block without a tag; consequently any whitespace-insensitive
parse of the unwrapped text agrees with parsing the original JSON text
directly.  (The fence-marker proviso is forced: `split("```")` also splits
on backtick runs inside JSON string literals.) -/
theorem unwrap_then_parse_roundtrip {V : Type} (s : String)
    (hjson : (pyStrip s).data.head? = some '{')
    (hno : hasInfix backticksCs s.data = false)
    (parse : String → Option V)
    (hparse : ∀ t, parse (pyStrip t) = parse t) :
    unwrapResponse s = pyStrip s ∧
    unwrapResponse ("```json\n" ++ s ++ "\n```") = pyStrip s ∧
    unwrapResponse ("```\n" ++ s ++ "\n```") = pyStrip s ∧
    parse (unwrapResponse s) = parse s ∧
    parse (unwrapResponse ("```json\n" ++ s ++ "\n```")) = parse s ∧
    parse (unwrapResponse ("```\n" ++ s ++ "\n```")) = parse s := by
  have hnoP : ¬ backticksCs <:+: s.data := by
    intro h
    rw [(UnwrapLemmas.hasInfix_iff _ _).mpr h] at hno
    exact Bool.noConfusion hno
  have hdata2 : ("```json\n" ++ s ++ "\n```").data =
      backticksCs ++ (jsonTagCs ++ '\n' :: (s.data ++ ['\n'])) ++ backticksCs := by
    rw [UnwrapLemmas.data_append, UnwrapLemmas.data_append,
      show "```json\n".data = ['`', '`', '`', 'j', 's', 'o', 'n', '\n'] from rfl,
      show "\n```".data = ['\n', '`', '`', '`'] from rfl]
    simp [backticksCs, jsonTagCs, List.append_assoc]
  have hdata3 : ("```\n" ++ s ++ "\n```").data =
      backticksCs ++ ('\n' :: (s.data ++ ['\n'])) ++ backticksCs := by
    rw [UnwrapLemmas.data_append, UnwrapLemmas.data_append,
      show "```\n".data = ['`', '`', '`', '\n'] from rfl,
      show "\n```".data = ['\n', '`', '`', '`'] from rfl]
    simp [backticksCs, List.append_assoc]
  have h1 : unwrapResponse s = pyStrip s :=
    congrArg String.mk (UnwrapLemmas.unwrapCs_unfenced s.data hjson)
  have h2 : unwrapResponse ("```json\n" ++ s ++ "\n```") = pyStrip s := by
    apply congrArg String.mk
    rw [hdata2]
    exact UnwrapLemmas.unwrapCs_fenced_json s.data hnoP
  have h3 : unwrapResponse ("```\n" ++ s ++ "\n```") = pyStrip s := by
    apply congrArg String.mk
    rw [hdata3]
    exact UnwrapLemmas.unwrapCs_fenced_plain s.data hnoP
  refine ⟨h1, h2, h3, ?_, ?_, ?_⟩
  · rw [h1, hparse s]
  · rw [h2, hparse s]
  · rw [h3, hparse s]

/-- C6 witness: a concrete JSON object round-trips through the fenced
unwrap, with a concrete whitespace-insensitive parse function. -/
theorem unwrap_then_parse_roundtrip_witness :
    ((pyStrip "\x7b\"ok\": true\x7d").data.head? = some '{') ∧
    unwrapResponse ("```json\n" ++ "\x7b\"ok\": true\x7d" ++ "\n```") =
      pyStrip "\x7b\"ok\": true\x7d" :=
  ⟨by decide,
    (unwrap_then_parse_roundtrip (V := Nat) "\x7b\"ok\": true\x7d" (by decide)
      (by decide) (fun _ => none) (fun _ => rfl)).2.1⟩

/-- The JSON object of the C6 counterexample: valid JSON whose string
content contains the fence marker. -/
def c6Json : String := "\x7b\"quote\": \"a```b\"\x7d"

/-- A whitespace-insensitive probe parser recognising exactly `c6Json`. -/
def c6Probe (t : String) : Option Nat :=
  if pyStrip t = c6Json then some 1 else none

/-- C6 counterexample: for the valid JSON object `{"quote": "a```b"}`
wrapped in a fenced block with the json tag, the unwrap step of
`classify_post` recovers the truncated text `{"quote": "a` — not the JSON
text — because `split("```")` also splits at the backtick run inside the
string literal.  Hence no whitespace-insensitive parse of the unwrap result
can agree with parsing the JSON directly: the claim fails at this input. -/
theorem unwrap_fenced_counterexample :
    unwrapResponse ("```json\n" ++ c6Json ++ "\n```") = "\x7b\"quote\": \"a" ∧
    pyStrip c6Json = c6Json ∧
    ¬ (∀ parse : String → Option Nat, (∀ t, parse (pyStrip t) = parse t) →
        parse (unwrapResponse ("```json\n" ++ c6Json ++ "\n```")) =
          parse c6Json) := by
  refine ⟨by decide, by decide, fun hall => ?_⟩
  have hinv : ∀ t, c6Probe (pyStrip t) = c6Probe t := by
    intro t
    unfold c6Probe
    rw [show pyStrip (pyStrip t) = pyStrip t from
      congrArg String.mk (UnwrapLemmas.stripCs_idem t.data)]
  have hc := hall c6Probe hinv
  rw [show unwrapResponse ("```json\n" ++ c6Json ++ "\n```") =
    "\x7b\"quote\": \"a" from by decide] at hc
  have hl : c6Probe "\x7b\"quote\": \"a" = none := by decide
  have hr : c6Probe c6Json = some 1 := by decide
  rw [hl, hr] at hc
  exact Option.noConfusion hc
